import Mathlib

/-!
# Verification model of the `stable-hash` crate

This file gives a shallow embedding of the stable-hash encoding protocol:

* the sequence-number structural addressing scheme (`Addr`, from
  `src/crypto/blake3_sequence.rs` and the `FieldAddress`/`SequenceNumber`
  contracts in `src/lib.rs`),
* the per-type `StableHash` implementations (`src/impls/*.rs`) as functions
  from a value and an address to the stream of `write` calls made on the
  hasher,
* the unordered aggregation procedure (`src/impls/mod.rs`),
* the concrete `Blake3SeqNo` state machine (`src/crypto/blake3_sequence.rs`),
* the fast backend's mixing accumulator (spec-modelled; `src/fast/fld.rs`
  is not part of the sources, only its caller `src/fast/hasher.rs` is).

A hasher backend turns the stream of writes into a digest, so two values
whose write streams coincide receive the same digest from every backend;
two values whose streams differ receive different digests from every
injective finalization of the stream (the crate's own documentation in
`src/lib.rs` defines collision-freedom as injectivity of the encoding).
-/

/-- The usize modulus on 64-bit targets. -/
def USIZE : Nat := 2 ^ 64

/-- A structural address in the sequence-number scheme: the path of child
ordinals already folded into the (cloned) hasher state, together with the
strictly-positive counter for the next child at the current level.
Mirrors `Blake3SeqNo { hasher, child }` with the hasher state abstracted as
the ordinal path it has been fed. -/
structure Addr where
  pre : List Nat
  ctr : Nat
deriving DecidableEq, Repr

/-- `FieldAddress::root()` / `SequenceNumber::root()`: fresh state, counter 1. -/
def Addr.root : Addr := ⟨[], 1⟩

/-- `SequenceNumber::next_child()` viewed functionally: the first component is
the mutated parent (counter advanced), the second is the derived child (the
current ordinal appended to the path, counter reset to 1). -/
def Addr.nextChild (a : Addr) : Addr × Addr :=
  (⟨a.pre, a.ctr + 1⟩, ⟨a.pre ++ [a.ctr], 1⟩)

/-- `FieldAddress::child(number)`: the child identified by the explicit field
number `n`.  Field number `n` is carried by the strictly positive ordinal
`n + 1`, so that the explicit numbering in `tests/backward_compatibility.rs`
(`child(0)`, `child(1)`) and the sequential `next_child()` calls of
`src/impls/option.rs`, `src/impls/tuple.rs` (ordinals 1, 2, …) address the
same children consistently. -/
def Addr.child (a : Addr) (n : Nat) : Addr :=
  ⟨a.pre ++ [n + 1], 1⟩

/-- The bytes of one `write` call: the address it was issued at (its path;
`Blake3SeqNo::finish` consumes only the accumulated hasher state, not the
counter) and the payload. -/
abbrev WEvent : Type := List Nat × List Nat

/-- The stream of `write` calls an encoder contributes to the hasher. -/
abbrev WStream : Type := List WEvent

/-- `impl StableHash for bool` (src/impls/bool.rs): `true` performs one write
of the empty payload at the given address, `false` writes nothing. -/
def bool_stable_hash (b : Bool) (a : Addr) : WStream :=
  if b then [(a.pre, [])] else []

/-- Little-endian bytes of `n` at fixed width `w` (`to_le_bytes` in
src/impls/ints.rs). -/
def leBytes : Nat → Nat → List Nat
  | 0, _ => []
  | w + 1, n => (n % 256) :: leBytes w (n / 256)

/-- Modelled from the spec: `trim_zeros` of the missing `src/utils.rs` —
"write the magnitude's little-endian minimal-width representation", i.e.
drop the trailing (most significant) zero bytes. -/
def trimLE (l : List Nat) : List Nat :=
  (l.reverse.dropWhile (fun b => b == 0)).reverse

/-- Modelled from the spec: `AsInt::stable_hash` of the missing
`src/utils.rs` — "Integers encode sign and magnitude separately: write the
magnitude's little-endian minimal-width representation conditioned on
non-zero, and separately record sign only when the value is negative."  The
sign flag is a default-skippable bool at the first derived child, the
trimmed magnitude is written at the integer's own address. -/
def asInt_stable_hash (is_negative : Bool) (little_endian : List Nat) (a : Addr) : WStream :=
  bool_stable_hash is_negative ⟨a.pre ++ [a.ctr], 1⟩ ++
    (let canon := trimLE little_endian
     if canon = [] then [] else [(a.pre, canon)])

/-- `impl StableHash for uN` (src/impls/ints.rs, macro `impl_int`): forwards
`AsInt { is_negative: false, little_endian: &self.to_le_bytes() }`.
`w` is the byte width of the type. -/
def uint_stable_hash (w : Nat) (n : Nat) (a : Addr) : WStream :=
  asInt_stable_hash false (leBytes w n) a

/-- `impl StableHash for iN` (src/impls/ints.rs): forwards
`AsInt { is_negative: self.is_negative(), little_endian: &self.wrapping_abs().to_le_bytes() }`.
The bytes of `wrapping_abs()` reinterpreted as unsigned are `z.natAbs % 2^(8w)`. -/
def int_stable_hash (w : Nat) (z : Int) (a : Addr) : WStream :=
  asInt_stable_hash (decide (z < 0)) (leBytes w (z.natAbs % 2 ^ (8 * w))) a

/-- `impl StableHash for usize` (64-bit target). -/
def usize_stable_hash (n : Nat) (a : Addr) : WStream :=
  uint_stable_hash 8 n a

/-- Modelled from the spec: `AsBytes::stable_hash` of the missing
`src/utils.rs` — a byte string is a leaf; the empty string is the default
and "Defaults never call `write`", a non-empty string writes its bytes at
its own address. -/
def asBytes_stable_hash (s : List Nat) (a : Addr) : WStream :=
  if s = [] then [] else [(a.pre, s)]

/-- `impl StableHash for &str` (src/impls/string.rs): forwards
`AsBytes(self.as_bytes())`. -/
def str_stable_hash (s : List Nat) (a : Addr) : WStream :=
  asBytes_stable_hash s a

/-- `impl StableHash for String` (src/impls/string.rs): delegates to
`self.as_str()`. -/
def string_stable_hash (s : List Nat) (a : Addr) : WStream :=
  str_stable_hash s a

/-- `impl StableHash for &T` (src/impls/mod.rs): delegates to `(*self)`. -/
def ref_stable_hash (f : Addr → WStream) : Addr → WStream :=
  f

/-- `impl StableHash for Option<T>` (src/impls/option.rs): the presence flag
`is_some` at the first derived child, then (when present) the value at the
optional's own address, whose counter the `next_child` call has advanced. -/
def option_stable_hash {α : Type} (f : α → Addr → WStream) (o : Option α) (a : Addr) : WStream :=
  bool_stable_hash o.isSome ⟨a.pre ++ [a.ctr], 1⟩ ++
    (match o with
     | some v => f v ⟨a.pre, a.ctr + 1⟩
     | none => [])

/-- `impl StableHash for (T0, T1)` (src/impls/tuple.rs): each component at a
freshly derived child, in order. -/
def tuple2_stable_hash (f g : Addr → WStream) (a : Addr) : WStream :=
  f ⟨a.pre ++ [a.ctr], 1⟩ ++ g ⟨a.pre ++ [a.ctr + 1], 1⟩

/-- `impl StableHash for &[T]` (src/impls/vec.rs): each element at the child
derived from its index, in sequence order, then the element count at the
parent (unadvanced) address. -/
def slice_stable_hash {α : Type} (f : α → Addr → WStream) (l : List α) (a : Addr) : WStream :=
  (l.enum.map (fun p => f p.2 (a.child p.1))).flatten ++ usize_stable_hash l.length a

/-- `impl StableHash for Vec<T>` (src/impls/vec.rs): delegates to `&self[..]`. -/
def vec_stable_hash {α : Type} (f : α → Addr → WStream) (l : List α) (a : Addr) : WStream :=
  slice_stable_hash f l a

/-- `struct One<T0>` of tests/backward_compatibility.rs: field `one` at
`child(0)`. -/
def one_stable_hash (f : Addr → WStream) (a : Addr) : WStream :=
  f (a.child 0)

/-- `struct Two<T0, T1>` of tests/backward_compatibility.rs: field `one` at
`child(0)`, field `two` at `child(1)`. -/
def two_stable_hash (f g : Addr → WStream) (a : Addr) : WStream :=
  f (a.child 0) ++ g (a.child 1)

/-- Modelled from the spec (§6, and `generic_stable_hash` of the missing
`src/utils.rs`): a backend digest is computed by encoding the value at the
root address into a fresh hasher and finalizing; hence it is a function of
the write stream at the root.  `finish` stands for the backend's
finalization (xxh3-based for `FastStableHasher`, blake3-based for
`CryptoStableHasher`; both are external primitives). -/
def genericDigest {β : Type} (finish : WStream → β) (enc : Addr → WStream) : β :=
  finish (enc Addr.root)

/-- One event contributed to the outer hasher by an encoder that may use the
unordered aggregation protocol: either a plain `write`, or the rollup of an
unordered collection — `finish_unordered` folds the commutative, invertible
mixing accumulator holding the multiset of the members' independently
finalized sub-streams into the outer hasher at the rollup address
(spec §4.5; the aggregator itself lives outside src/, in the missing
`src/stable_hash.rs` / backend files). -/
inductive UEvent : Type where
  | write (pre : List Nat) (bytes : List Nat)
  | rollup (pre : List Nat) (members : Multiset WStream)
deriving DecidableEq

/-- A plain write stream viewed as a stream of outer events. -/
def toUEvents (w : WStream) : List UEvent :=
  w.map (fun p => UEvent.write p.1 p.2)

/-- `unordered_unique_stable_hash` (src/impls/mod.rs): derive the rollup,
member and count children up front (ordinals `ctr`, `ctr+1`, `ctr+2`);
encode every member at the shared member address into its own fresh hasher
and mix the finalized results into one accumulator; fold the accumulator
into the outer hasher at the rollup address; then hash the member count at
the count address.  The accumulator holds exactly the multiset of member
streams, so the rollup is a `Multiset`; an empty collection leaves the
accumulator at the identity, which mixes in as a no-op (modelled from the
spec's default rule: empty maps/sets never call `write`). -/
def unordered_unique_stable_hash {α : Type} (f : α → Addr → WStream)
    (items : List α) (a : Addr) : List UEvent :=
  let rollup_seq_no : Addr := ⟨a.pre ++ [a.ctr], 1⟩
  let member_seq_no : Addr := ⟨a.pre ++ [a.ctr + 1], 1⟩
  let count_seq_no : Addr := ⟨a.pre ++ [a.ctr + 2], 1⟩
  (if items.length = 0 then []
   else [UEvent.rollup rollup_seq_no.pre
          (Multiset.ofList (items.map (fun m => f m member_seq_no)))]) ++
    toUEvents (usize_stable_hash items.length count_seq_no)

/-- `impl StableHash for HashSet<T, S>` (src/impls/hash_set.rs): forwards the
iterator to `unordered_unique_stable_hash`.  `items` is one enumeration
order of the set. -/
def hashSet_stable_hash {α : Type} (f : α → Addr → WStream)
    (items : List α) (a : Addr) : List UEvent :=
  unordered_unique_stable_hash f items a

/-- `impl StableHash for HashMap<K, V, S>` (src/impls/hash_map.rs): forwards
the `(&K, &V)` iterator; each entry hashes as a 2-tuple of references. -/
def hashMap_stable_hash {κ ν : Type} (f : κ → Addr → WStream) (g : ν → Addr → WStream)
    (items : List (κ × ν)) (a : Addr) : List UEvent :=
  unordered_unique_stable_hash
    (fun p => tuple2_stable_hash (ref_stable_hash (f p.1)) (ref_stable_hash (g p.2))) items a

/-- Digest of an encoder that may use unordered aggregation (see
`genericDigest`). -/
def genericDigestU {β : Type} (finish : List UEvent → β) (enc : Addr → List UEvent) : β :=
  finish (enc Addr.root)

/-! ## The `Blake3SeqNo` state machine (src/crypto/blake3_sequence.rs) -/

/-- Unsigned LEB128, the encoding `leb128::write::unsigned` feeds into the
cloned hasher in `Blake3SeqNo::next_child`. -/
def uleb128 (n : Nat) : List Nat :=
  if h : n < 128 then [n]
  else (n % 128 + 128) :: uleb128 (n / 128)
decreasing_by
  exact Nat.div_lt_self (by omega) (by omega)

/-- `Blake3SeqNo`: the blake3 hasher state abstracted as the byte stream fed
to it so far, plus the `NonZeroUsize` child counter. -/
structure Blake3SeqNo where
  fed : List Nat
  child : Nat
deriving DecidableEq, Repr

/-- `Blake3SeqNo::root()`: fresh hasher, counter 1. -/
def Blake3SeqNo.root : Blake3SeqNo := ⟨[], 1⟩

/-- `Blake3SeqNo::next_child()`: clone the hasher, advance the counter by 1
(`NonZeroUsize::new(child.get() + 1).unwrap()` — under wrapping arithmetic
the sum is taken mod `usize::MAX + 1` and a zero result makes the `unwrap`
panic, modelled as `none`), feed the varint of the previous counter into the
clone and return it with its counter reset to 1.  The result pairs the
mutated `self` with the returned child. -/
def Blake3SeqNo.nextChild (s : Blake3SeqNo) : Option (Blake3SeqNo × Blake3SeqNo) :=
  let c : Nat := (s.child + 1) % USIZE
  if c = 0 then none
  else some (⟨s.fed, c⟩, ⟨s.fed ++ uleb128 s.child, 1⟩)

/-- `Blake3SeqNo::skip(count)`:
`self.child = NonZeroUsize::new(self.child.get() + count).unwrap()`, with the
same wrapping/panic model as `nextChild`. -/
def Blake3SeqNo.skip (s : Blake3SeqNo) (count : Nat) : Option Blake3SeqNo :=
  let c : Nat := (s.child + count) % USIZE
  if c = 0 then none
  else some ⟨s.fed, c⟩

/-- `Blake3SeqNo::finish(payload)`: feed the 0 marker byte, then the payload,
then finalize; the counter is discarded.  The function returns the full byte
stream the blake3 hasher has consumed. -/
def Blake3SeqNo.finish (s : Blake3SeqNo) (payload : List Nat) : List Nat :=
  s.fed ++ [0] ++ payload

/-- The states of `Blake3SeqNo` reachable through `root`, `next_child`
(either the mutated parent or the returned child) and `skip`. -/
inductive Blake3SeqNo.Reachable : Blake3SeqNo → Prop where
  | root : Blake3SeqNo.Reachable Blake3SeqNo.root
  | nextSelf {s s' c : Blake3SeqNo} : Blake3SeqNo.Reachable s →
      s.nextChild = some (s', c) → Blake3SeqNo.Reachable s'
  | nextDerived {s s' c : Blake3SeqNo} : Blake3SeqNo.Reachable s →
      s.nextChild = some (s', c) → Blake3SeqNo.Reachable c
  | skipStep {s s' : Blake3SeqNo} {n : Nat} : Blake3SeqNo.Reachable s →
      s.skip n = some s' → Blake3SeqNo.Reachable s'

/-! ## The fast backend's mixing accumulator

`src/fast/hasher.rs` (present) keeps `mixer: FldMix` (24 bytes, i.e. three
64-bit field elements) and `count: u64`; `mixin` merges the mixers and adds
the counts.  `FldMix` itself lives in the missing `src/fast/fld.rs`, so its
state and group operations are modelled from the spec (§4.2): "a small
fixed-width vector of modular-field elements"; "`mixin(other)` / `unmix(other)`:
field-wise modular addition / subtraction of two accumulators' internal
vectors and cardinality counters". -/

/-- Modelled from the spec: the modulus of the accumulator's field elements
(a 64-bit prime; src/fast/fld.rs, which fixes the constant, is missing). -/
def FP : Nat := 2 ^ 64 - 59

/-- Modelled from the spec: `FldMix` of the missing `src/fast/fld.rs` — the
24-byte accumulator vector: three 64-bit modular-field elements. -/
structure FldMix where
  x0 : ZMod FP
  x1 : ZMod FP
  x2 : ZMod FP

/-- Modelled from the spec: `FldMix::mixin`, field-wise modular addition. -/
def FldMix.mixin (a b : FldMix) : FldMix :=
  ⟨a.x0 + b.x0, a.x1 + b.x1, a.x2 + b.x2⟩

/-- Modelled from the spec: `FldMix::unmix`, field-wise modular subtraction. -/
def FldMix.unmix (a b : FldMix) : FldMix :=
  ⟨a.x0 - b.x0, a.x1 - b.x1, a.x2 - b.x2⟩

/-- Modelled from the spec: `FldMix::new()`, the all-zero identity element. -/
def FldMix.zero : FldMix := ⟨0, 0, 0⟩

/-- `FastStableHasher` (src/fast/hasher.rs): one mixing accumulator plus a
64-bit write counter. -/
structure FastStableHasher where
  mixer : FldMix
  count : ZMod USIZE

/-- `FastStableHasher::new()` (src/fast/hasher.rs). -/
def FastStableHasher.new : FastStableHasher := ⟨FldMix.zero, 0⟩

/-- `FastStableHasher::mixin` (src/fast/hasher.rs):
`self.mixer.mixin(&other.mixer); self.count += other.count;`. -/
def FastStableHasher.mixin (a b : FastStableHasher) : FastStableHasher :=
  ⟨a.mixer.mixin b.mixer, a.count + b.count⟩

/-- Modelled from the spec: `FastStableHasher::unmix`, the exact inverse of
`mixin` — field-wise modular subtraction of the mixer vectors and of the
counters (§4.2; the fast backend's unmix is in the missing parts of src/). -/
def FastStableHasher.unmix (a b : FastStableHasher) : FastStableHasher :=
  ⟨a.mixer.unmix b.mixer, a.count - b.count⟩

/-- One step of an interleaved mix/unmix run: `(true, b)` mixes `b` in,
`(false, b)` unmixes `b`. -/
def FastStableHasher.step (a : FastStableHasher) (op : Bool × FastStableHasher) :
    FastStableHasher :=
  if op.1 then a.mixin op.2 else a.unmix op.2

/-- A finite sequence of mix/unmix operations applied in order. -/
def FastStableHasher.applyOps (a : FastStableHasher) (ops : List (Bool × FastStableHasher)) :
    FastStableHasher :=
  ops.foldl FastStableHasher.step a

/-- The combined accumulator of a list of accumulators. -/
def FastStableHasher.sum (l : List FastStableHasher) : FastStableHasher :=
  l.foldl FastStableHasher.mixin FastStableHasher.new

/-- The operands of the mix operations of a run. -/
def FastStableHasher.mixes (ops : List (Bool × FastStableHasher)) : List FastStableHasher :=
  ops.filterMap (fun op => if op.1 then some op.2 else none)

/-- The operands of the unmix operations of a run. -/
def FastStableHasher.unmixes (ops : List (Bool × FastStableHasher)) : List FastStableHasher :=
  ops.filterMap (fun op => if op.1 then none else some op.2)

/-- The encoder of one `&(String, u64)` member of a `HashSet<(String, u64)>`:
the reference impl delegates to the 2-tuple impl, whose components are the
string's bytes and the unsigned 64-bit integer. -/
def strU64_stable_hash (p : List Nat × Nat) : Addr → WStream :=
  ref_stable_hash (tuple2_stable_hash (string_stable_hash p.1) (uint_stable_hash 8 p.2))

/-! ## Helper lemmas -/

theorem leBytes_zero (w : Nat) : leBytes w 0 = List.replicate w 0 := by
  induction w with
  | zero => rfl
  | succ w ih => simp [leBytes, ih, List.replicate_succ]

theorem dropWhile_zero_replicate (k : Nat) (ys : List Nat) :
    (List.replicate k 0 ++ ys).dropWhile (fun b => b == 0) =
      ys.dropWhile (fun b => b == 0) := by
  induction k with
  | zero => rfl
  | succ k ih => simp [List.replicate_succ, List.dropWhile, ih]

theorem trimLE_append_replicate (xs : List Nat) (k : Nat) :
    trimLE (xs ++ List.replicate k 0) = trimLE xs := by
  unfold trimLE
  rw [List.reverse_append, List.reverse_replicate, dropWhile_zero_replicate]

theorem trimLE_leBytes_zero (w : Nat) : trimLE (leBytes w 0) = [] := by
  have h := trimLE_append_replicate [] w
  simp only [List.nil_append] at h
  rw [leBytes_zero, h]
  rfl

theorem leBytes_append_of_lt (w k n : Nat) (h : n < 2 ^ (8 * w)) :
    leBytes (w + k) n = leBytes w n ++ List.replicate k 0 := by
  induction w generalizing n with
  | zero =>
    have hn : n = 0 := by simpa using Nat.lt_one_iff.mp (by simpa using h)
    subst hn
    simp [leBytes, leBytes_zero]
  | succ w ih =>
    have hstep : w + 1 + k = (w + k) + 1 := by omega
    rw [hstep]
    show (n % 256) :: leBytes (w + k) (n / 256) = _
    have hdiv : n / 256 < 2 ^ (8 * w) := by
      have h256 : (0 : Nat) < 256 := by norm_num
      rw [Nat.div_lt_iff_lt_mul h256]
      calc n < 2 ^ (8 * (w + 1)) := h
        _ = 2 ^ (8 * w) * 256 := by ring
    rw [ih _ hdiv]
    simp [leBytes]

theorem trimLE_leBytes_widen {w w' n : Nat} (hw : w ≤ w') (h : n < 2 ^ (8 * w)) :
    trimLE (leBytes w' n) = trimLE (leBytes w n) := by
  obtain ⟨k, rfl⟩ := Nat.exists_eq_add_of_le hw
  rw [leBytes_append_of_lt w k n h, trimLE_append_replicate]

theorem asInt_congr {le1 le2 : List Nat} (neg : Bool) (a : Addr)
    (h : trimLE le1 = trimLE le2) :
    asInt_stable_hash neg le1 a = asInt_stable_hash neg le2 a := by
  simp [asInt_stable_hash, h]

theorem uint_stable_hash_zero (w : Nat) (a : Addr) : uint_stable_hash w 0 a = [] := by
  simp [uint_stable_hash, asInt_stable_hash, bool_stable_hash, trimLE_leBytes_zero]

attribute [ext] FldMix FastStableHasher

theorem FldMix.mixin_swap (a b : FldMix) : a.mixin b = b.mixin a := by
  ext <;> simp [FldMix.mixin] <;> ring

theorem FldMix.mixin_reassoc (a b c : FldMix) :
    (a.mixin b).mixin c = a.mixin (b.mixin c) := by
  ext <;> simp [FldMix.mixin] <;> ring

theorem FldMix.unmix_of_mixin (a b : FldMix) : (a.mixin b).unmix b = a := by
  ext <;> simp [FldMix.mixin, FldMix.unmix]

theorem FastStableHasher.mixin_comm (a b : FastStableHasher) :
    a.mixin b = b.mixin a := by
  ext <;> simp [FastStableHasher.mixin, FldMix.mixin] <;> ring

theorem FastStableHasher.mixin_assoc (a b c : FastStableHasher) :
    (a.mixin b).mixin c = a.mixin (b.mixin c) := by
  ext <;> simp [FastStableHasher.mixin, FldMix.mixin] <;> ring

theorem FastStableHasher.unmix_mixin (a b : FastStableHasher) :
    (a.mixin b).unmix b = a := by
  ext <;> simp [FastStableHasher.mixin, FastStableHasher.unmix,
    FldMix.mixin, FldMix.unmix]

theorem FastStableHasher.mixin_new (a : FastStableHasher) :
    a.mixin FastStableHasher.new = a := by
  ext <;> simp [FastStableHasher.mixin, FastStableHasher.new,
    FldMix.mixin, FldMix.zero]

theorem FastStableHasher.unmix_new (a : FastStableHasher) :
    a.unmix FastStableHasher.new = a := by
  ext <;> simp [FastStableHasher.unmix, FastStableHasher.new,
    FldMix.unmix, FldMix.zero]

theorem FastStableHasher.mixin_right_comm (a b c : FastStableHasher) :
    (a.mixin b).mixin c = (a.mixin c).mixin b := by
  ext <;> simp [FastStableHasher.mixin, FldMix.mixin] <;> ring

theorem FastStableHasher.mixin_mixin_unmix_shuffle (a v s t : FastStableHasher) :
    ((a.mixin v).mixin s).unmix t = (a.mixin (s.mixin v)).unmix t := by
  ext <;> simp [FastStableHasher.mixin, FastStableHasher.unmix,
    FldMix.mixin, FldMix.unmix] <;> ring

theorem FastStableHasher.unmix_mixin_unmix_shuffle (a v s t : FastStableHasher) :
    ((a.unmix v).mixin s).unmix t = (a.mixin s).unmix (t.mixin v) := by
  ext <;> simp [FastStableHasher.mixin, FastStableHasher.unmix,
    FldMix.mixin, FldMix.unmix] <;> ring

theorem FastStableHasher.foldl_mixin_shift (l : List FastStableHasher)
    (x y : FastStableHasher) :
    List.foldl FastStableHasher.mixin (x.mixin y) l =
      (List.foldl FastStableHasher.mixin x l).mixin y := by
  induction l generalizing x with
  | nil => rfl
  | cons z l ih =>
    show List.foldl FastStableHasher.mixin ((x.mixin y).mixin z) l = _
    rw [FastStableHasher.mixin_right_comm, ih]
    rfl

theorem FastStableHasher.sum_cons (v : FastStableHasher) (l : List FastStableHasher) :
    FastStableHasher.sum (v :: l) = (FastStableHasher.sum l).mixin v := by
  show List.foldl FastStableHasher.mixin (FastStableHasher.new.mixin v) l = _
  rw [FastStableHasher.foldl_mixin_shift]
  rfl

/-- Any interleaving of mix/unmix operations reduces to its net effect:
mix in the combined mix operands, unmix the combined unmix operands. -/
theorem FastStableHasher.applyOps_net (a : FastStableHasher)
    (ops : List (Bool × FastStableHasher)) :
    a.applyOps ops =
      (a.mixin (FastStableHasher.sum (FastStableHasher.mixes ops))).unmix
        (FastStableHasher.sum (FastStableHasher.unmixes ops)) := by
  induction ops generalizing a with
  | nil =>
    simp [FastStableHasher.applyOps, FastStableHasher.mixes, FastStableHasher.unmixes,
      FastStableHasher.sum, FastStableHasher.mixin_new, FastStableHasher.unmix_new]
  | cons op ops ih =>
    obtain ⟨b, v⟩ := op
    cases b with
    | true =>
      have hm : FastStableHasher.mixes ((true, v) :: ops) = v :: FastStableHasher.mixes ops := by
        simp [FastStableHasher.mixes]
      have hu : FastStableHasher.unmixes ((true, v) :: ops) = FastStableHasher.unmixes ops := by
        simp [FastStableHasher.unmixes]
      have hstep : a.applyOps ((true, v) :: ops) = (a.mixin v).applyOps ops := by
        simp [FastStableHasher.applyOps, FastStableHasher.step]
      rw [hstep, ih, hm, hu, FastStableHasher.sum_cons,
        FastStableHasher.mixin_mixin_unmix_shuffle]
    | false =>
      have hm : FastStableHasher.mixes ((false, v) :: ops) = FastStableHasher.mixes ops := by
        simp [FastStableHasher.mixes]
      have hu : FastStableHasher.unmixes ((false, v) :: ops) =
          v :: FastStableHasher.unmixes ops := by
        simp [FastStableHasher.unmixes]
      have hstep : a.applyOps ((false, v) :: ops) = (a.unmix v).applyOps ops := by
        simp [FastStableHasher.applyOps, FastStableHasher.step]
      rw [hstep, ih, hm, hu, FastStableHasher.sum_cons,
        FastStableHasher.unmix_mixin_unmix_shuffle]

theorem uleb128_head_ne_zero {n : Nat} (h : 0 < n) : (uleb128 n).head? ≠ some 0 := by
  rw [uleb128]
  split
  · simp only [List.head?_cons, ne_eq, Option.some.injEq]
    omega
  · simp only [List.head?_cons, ne_eq, Option.some.injEq]
    omega

theorem Blake3SeqNo.nextChild_inv {s t c : Blake3SeqNo} (h : s.nextChild = some (t, c)) :
    t = ⟨s.fed, (s.child + 1) % USIZE⟩ ∧ c = ⟨s.fed ++ uleb128 s.child, 1⟩ ∧
      (s.child + 1) % USIZE ≠ 0 := by
  simp only [Blake3SeqNo.nextChild] at h
  split at h
  · exact absurd h (by simp)
  · rename_i hc
    have h' := Option.some.inj h
    exact ⟨(congrArg Prod.fst h').symm, (congrArg Prod.snd h').symm, hc⟩

theorem Blake3SeqNo.skip_inv {s t : Blake3SeqNo} {n : Nat} (h : s.skip n = some t) :
    t = ⟨s.fed, (s.child + n) % USIZE⟩ ∧ (s.child + n) % USIZE ≠ 0 := by
  simp only [Blake3SeqNo.skip] at h
  split at h
  · exact absurd h (by simp)
  · rename_i hc
    exact ⟨(Option.some.inj h).symm, hc⟩

theorem Blake3SeqNo.reachable_child_pos {s : Blake3SeqNo} (h : s.Reachable) :
    0 < s.child := by
  induction h with
  | root => exact Nat.one_pos
  | nextSelf hr heq ih =>
    obtain ⟨h1, _, h3⟩ := Blake3SeqNo.nextChild_inv heq
    rw [h1]
    exact Nat.pos_of_ne_zero h3
  | nextDerived hr heq ih =>
    obtain ⟨_, h2, _⟩ := Blake3SeqNo.nextChild_inv heq
    rw [h2]
    exact Nat.one_pos
  | skipStep hr heq ih =>
    obtain ⟨h1, h2⟩ := Blake3SeqNo.skip_inv heq
    rw [h1]
    exact Nat.pos_of_ne_zero h2

theorem enumFrom_snd_mem {α : Type} :
    ∀ (l : List α) (n : Nat) (p : Nat × α), p ∈ l.enumFrom n → p.2 ∈ l := by
  intro l
  induction l with
  | nil => intro n p hp; simp [List.enumFrom] at hp
  | cons x l ih =>
    intro n p hp
    simp only [List.enumFrom, List.mem_cons] at hp
    rcases hp with h | h
    · subst h; simp
    · exact List.mem_cons_of_mem x (ih (n + 1) p h)

theorem map_congr_of_mem {α β : Type} {f g : α → β} :
    ∀ {l : List α}, (∀ x ∈ l, f x = g x) → l.map f = l.map g := by
  intro l
  induction l with
  | nil => intro _; rfl
  | cons x l ih =>
    intro h
    simp only [List.map_cons]
    rw [h x (by simp), ih (fun y hy => h y (List.mem_cons_of_mem x hy))]

theorem slice_congr_of_mem {α : Type} {f g : α → Addr → WStream} {l : List α}
    (h : ∀ x ∈ l, ∀ a, f x a = g x a) (a : Addr) :
    slice_stable_hash f l a = slice_stable_hash g l a := by
  unfold slice_stable_hash
  congr 1
  congr 1
  apply map_congr_of_mem
  intro p hp
  exact h p.2 (enumFrom_snd_mem l 0 p hp) (a.child p.1)

theorem unordered_perm {α : Type} (f : α → Addr → WStream) {l1 l2 : List α}
    (h : l1.Perm l2) (a : Addr) :
    unordered_unique_stable_hash f l1 a = unordered_unique_stable_hash f l2 a := by
  have hlen : l1.length = l2.length := h.length_eq
  unfold unordered_unique_stable_hash
  have hms : Multiset.ofList (l1.map (fun m => f m ⟨a.pre ++ [a.ctr + 1], 1⟩)) =
      Multiset.ofList (l2.map (fun m => f m ⟨a.pre ++ [a.ctr + 1], 1⟩)) :=
    Multiset.coe_eq_coe.mpr (h.map _)
  simp only [hlen, hms]

theorem uint_stable_hash_widen {w w' : Nat} (hw : w ≤ w') {n : Nat}
    (h : n < 2 ^ (8 * w)) (a : Addr) :
    uint_stable_hash w' n a = uint_stable_hash w n a :=
  asInt_congr false a (trimLE_leBytes_widen hw h)

/-! ## The claims -/

/-- C1.  Default-skip backward compatibility: hashing a default value — 0 for
integers, `false`, the empty string, the empty `Vec`/slice, the empty
`HashMap`/`HashSet`, `None` — performs zero calls to the hasher's `write`;
consequently, for every field value `a`, `Two { one: a, two: default }`
produces exactly the write stream of `One { one: a }`, and hence the same
digest under every backend (`fast_stable_hash` and `crypto_stable_hash`
both finalize a function of the stream). -/
theorem spec_c1_default_skip_backward_compatibility :
    (∀ (w : Nat) (a : Addr), uint_stable_hash w 0 a = []) ∧
    (∀ a : Addr, bool_stable_hash false a = []) ∧
    (∀ a : Addr, str_stable_hash [] a = []) ∧
    (∀ (α : Type) (g : α → Addr → WStream) (a : Addr), vec_stable_hash g [] a = []) ∧
    (∀ (α : Type) (g : α → Addr → WStream) (a : Addr), option_stable_hash g none a = []) ∧
    (∀ (α : Type) (g : α → Addr → WStream) (a : Addr), hashSet_stable_hash g [] a = []) ∧
    (∀ (κ ν : Type) (f : κ → Addr → WStream) (g : ν → Addr → WStream) (a : Addr),
      hashMap_stable_hash f g [] a = []) ∧
    (∀ (f : Addr → WStream) (α : Type) (g : α → Addr → WStream) (a : Addr),
      two_stable_hash f (option_stable_hash g none) a = one_stable_hash f a) ∧
    (∀ (f : Addr → WStream) (w : Nat) (a : Addr),
      two_stable_hash f (uint_stable_hash w 0) a = one_stable_hash f a) ∧
    (∀ (f : Addr → WStream) (a : Addr),
      two_stable_hash f (bool_stable_hash false) a = one_stable_hash f a) ∧
    (∀ (f : Addr → WStream) (a : Addr),
      two_stable_hash f (str_stable_hash []) a = one_stable_hash f a) ∧
    (∀ (f : Addr → WStream) (α : Type) (g : α → Addr → WStream) (a : Addr),
      two_stable_hash f (vec_stable_hash g []) a = one_stable_hash f a) ∧
    (∀ (β : Type) (finish : WStream → β) (f : Addr → WStream) (α : Type)
        (g : α → Addr → WStream),
      genericDigest finish (two_stable_hash f (option_stable_hash g none)) =
        genericDigest finish (one_stable_hash f)) := by
  have hvec : ∀ (α : Type) (g : α → Addr → WStream) (a : Addr),
      vec_stable_hash g [] a = [] := by
    intro α g a
    simp [vec_stable_hash, slice_stable_hash, usize_stable_hash, uint_stable_hash_zero,
      List.enum]
  have hopt : ∀ (α : Type) (g : α → Addr → WStream) (a : Addr),
      option_stable_hash g none a = [] := by
    intro α g a
    simp [option_stable_hash, bool_stable_hash]
  have hset : ∀ (α : Type) (g : α → Addr → WStream) (a : Addr),
      hashSet_stable_hash g [] a = [] := by
    intro α g a
    simp [hashSet_stable_hash, unordered_unique_stable_hash, toUEvents,
      usize_stable_hash, uint_stable_hash_zero]
  refine ⟨uint_stable_hash_zero, fun a => rfl, fun a => rfl, hvec, hopt, hset,
    ?_, ?_, ?_, ?_, ?_, ?_, ?_⟩
  · intro κ ν f g a
    simp [hashMap_stable_hash, unordered_unique_stable_hash, toUEvents,
      usize_stable_hash, uint_stable_hash_zero]
  · intro f α g a
    simp [two_stable_hash, one_stable_hash, hopt]
  · intro f w a
    simp [two_stable_hash, one_stable_hash, uint_stable_hash_zero]
  · intro f a
    simp [two_stable_hash, one_stable_hash, bool_stable_hash]
  · intro f a
    simp [two_stable_hash, one_stable_hash, str_stable_hash, asBytes_stable_hash]
  · intro f α g a
    simp [two_stable_hash, one_stable_hash, hvec]
  · intro β finish f α g
    unfold genericDigest
    congr 1
    simp [two_stable_hash, one_stable_hash, hopt]

/-- C2.  Determinism and iteration-order independence: the encoders are pure
functions of the logical value, and for every `HashMap` or `HashSet`, any
two enumeration orders of the same entries produce the same event stream —
hence the same digest under every backend. -/
theorem spec_c2_iteration_order_independence :
    (∀ (α : Type) (f : α → Addr → WStream) (l1 l2 : List α) (a : Addr), l1.Perm l2 →
      hashSet_stable_hash f l1 a = hashSet_stable_hash f l2 a) ∧
    (∀ (κ ν : Type) (f : κ → Addr → WStream) (g : ν → Addr → WStream)
        (l1 l2 : List (κ × ν)) (a : Addr), l1.Perm l2 →
      hashMap_stable_hash f g l1 a = hashMap_stable_hash f g l2 a) ∧
    (∀ (α : Type) (f : α → Addr → WStream) (l1 l2 : List α) (β : Type)
        (finish : List UEvent → β), l1.Perm l2 →
      genericDigestU finish (hashSet_stable_hash f l1) =
        genericDigestU finish (hashSet_stable_hash f l2)) := by
  refine ⟨?_, ?_, ?_⟩
  · intro α f l1 l2 a h
    exact unordered_perm f h a
  · intro κ ν f g l1 l2 a h
    exact unordered_perm _ h a
  · intro α f l1 l2 β finish h
    unfold genericDigestU hashSet_stable_hash
    rw [unordered_perm f h Addr.root]

/-- C2 witness: the two enumeration orders of the set `{1, 2}` of `u32`
produce identical event streams. -/
theorem spec_c2_witness :
    hashSet_stable_hash (uint_stable_hash 4) [1, 2] Addr.root =
      hashSet_stable_hash (uint_stable_hash 4) [2, 1] Addr.root :=
  spec_c2_iteration_order_independence.1 Nat (uint_stable_hash 4) [1, 2] [2, 1]
    Addr.root (List.Perm.swap 2 1 [])

/-- C3.  Trailing-default sequence disambiguation: a sequence hashes each
element at a freshly derived child address in order and then the element
count at the parent address, so `vec![1u32, 2u32, 0u32]` and
`vec![1u32, 2u32]` produce different write streams (they differ exactly in
the count write), and therefore different digests under every injective
finalization of the stream. -/
theorem spec_c3_trailing_default_disambiguation :
    vec_stable_hash (uint_stable_hash 4) [1, 2, 0] Addr.root ≠
      vec_stable_hash (uint_stable_hash 4) [1, 2] Addr.root ∧
    (∀ (β : Type) (finish : WStream → β), Function.Injective finish →
      genericDigest finish (vec_stable_hash (uint_stable_hash 4) [1, 2, 0]) ≠
        genericDigest finish (vec_stable_hash (uint_stable_hash 4) [1, 2])) := by
  have hne : vec_stable_hash (uint_stable_hash 4) [1, 2, 0] Addr.root ≠
      vec_stable_hash (uint_stable_hash 4) [1, 2] Addr.root := by decide
  refine ⟨hne, ?_⟩
  intro β finish hinj h
  exact hne (hinj h)

/-- C3 witness: instantiating the backend finalization with the injective
identity map. -/
theorem spec_c3_witness :
    genericDigest id (vec_stable_hash (uint_stable_hash 4) [1, 2, 0]) ≠
      genericDigest id (vec_stable_hash (uint_stable_hash 4) [1, 2]) :=
  spec_c3_trailing_default_disambiguation.2 WStream id (fun _ _ h => h)

/-- C4.  Unordered position-swap non-collision: each member of an unordered
collection is encoded into its own fresh hasher and the finalized results
are aggregated as a multiset, so the sets `{("a",1),("b",2)}` and
`{("b",1),("a",2)}` produce different rollup multisets, hence different
event streams, hence different digests under every injective finalization. -/
theorem spec_c4_unordered_position_swap :
    hashSet_stable_hash strU64_stable_hash [([97], 1), ([98], 2)] Addr.root ≠
      hashSet_stable_hash strU64_stable_hash [([98], 1), ([97], 2)] Addr.root ∧
    (∀ (β : Type) (finish : List UEvent → β), Function.Injective finish →
      genericDigestU finish (hashSet_stable_hash strU64_stable_hash [([97], 1), ([98], 2)]) ≠
        genericDigestU finish (hashSet_stable_hash strU64_stable_hash [([98], 1), ([97], 2)])) := by
  have hne : hashSet_stable_hash strU64_stable_hash [([97], 1), ([98], 2)] Addr.root ≠
      hashSet_stable_hash strU64_stable_hash [([98], 1), ([97], 2)] Addr.root := by decide
  refine ⟨hne, ?_⟩
  intro β finish hinj h
  exact hne (hinj h)

/-- C4 witness: instantiating the backend finalization with the injective
identity map. -/
theorem spec_c4_witness :
    genericDigestU id (hashSet_stable_hash strU64_stable_hash [([97], 1), ([98], 2)]) ≠
      genericDigestU id (hashSet_stable_hash strU64_stable_hash [([98], 1), ([97], 2)]) :=
  spec_c4_unordered_position_swap.2 (List UEvent) id (fun _ _ h => h)

/-- C5.  Integer width independence: integers are encoded as sign and
magnitude separately — the trimmed little-endian magnitude is written only
when non-zero and the sign flag only when negative — so widening the storage
type leaves the write stream (hence the digest) unchanged: `u16` to `u32`,
`u32` to `u64`, `i16` to `i32`, and elementwise inside a `Vec`. -/
theorem spec_c5_integer_width_independence :
    (∀ (a : Addr) (n : Nat), n < 2 ^ 16 → uint_stable_hash 2 n a = uint_stable_hash 4 n a) ∧
    (∀ (a : Addr) (n : Nat), n < 2 ^ 32 → uint_stable_hash 4 n a = uint_stable_hash 8 n a) ∧
    (∀ (a : Addr) (z : Int), -(2 ^ 15) ≤ z → z < 2 ^ 15 →
      int_stable_hash 2 z a = int_stable_hash 4 z a) ∧
    (∀ (w : Nat) (z : Int) (a : Addr), 0 ≤ z →
      int_stable_hash w z a = asInt_stable_hash false (leBytes w (z.natAbs % 2 ^ (8 * w))) a) ∧
    (∀ (w : Nat) (a : Addr), uint_stable_hash w 0 a = []) ∧
    (∀ (a : Addr) (l : List Nat), (∀ x ∈ l, x < 2 ^ 16) →
      vec_stable_hash (uint_stable_hash 2) l a = vec_stable_hash (uint_stable_hash 4) l a) := by
  have h16 : (2 : Nat) ^ (8 * 2) = 2 ^ 16 := by norm_num
  have h32 : (2 : Nat) ^ (8 * 4) = 2 ^ 32 := by norm_num
  have hu16 : ∀ (a : Addr) (n : Nat), n < 2 ^ 16 →
      uint_stable_hash 2 n a = uint_stable_hash 4 n a := by
    intro a n h
    exact (uint_stable_hash_widen (by omega) (h16 ▸ h) a).symm
  refine ⟨hu16, ?_, ?_, ?_, uint_stable_hash_zero, ?_⟩
  · intro a n h
    exact (uint_stable_hash_widen (by omega) (h32 ▸ h) a).symm
  · intro a z hlo hhi
    unfold int_stable_hash
    have hab : z.natAbs < 2 ^ 16 := by
      have : (2 : Int) ^ 15 ≤ 2 ^ 16 := by norm_num
      omega
    have hm1 : z.natAbs % 2 ^ (8 * 2) = z.natAbs := Nat.mod_eq_of_lt (h16 ▸ hab)
    have hm2 : z.natAbs % 2 ^ (8 * 4) = z.natAbs := by
      refine Nat.mod_eq_of_lt ?_
      have : (2 : Nat) ^ 16 ≤ 2 ^ 32 := by norm_num
      rw [h32]
      omega
    rw [hm1, hm2]
    exact (asInt_congr _ a (trimLE_leBytes_widen (by omega) (h16 ▸ hab))).symm
  · intro w z a hz
    unfold int_stable_hash
    have : decide (z < 0) = false := by simp; omega
    rw [this]
  · intro a l hl
    unfold vec_stable_hash
    refine slice_congr_of_mem ?_ a
    intro x hx a'
    exact hu16 a' x (hl x hx)

/-- C5 witness: the bounds discharged at `5 : u16`/`u32`, `70000 : u32`/`u64`,
`-5 : i16`/`i32`, `7 : i32` non-negative, and the vector `[1, 2]`. -/
theorem spec_c5_witness :
    uint_stable_hash 2 5 Addr.root = uint_stable_hash 4 5 Addr.root ∧
    uint_stable_hash 4 70000 Addr.root = uint_stable_hash 8 70000 Addr.root ∧
    int_stable_hash 2 (-5) Addr.root = int_stable_hash 4 (-5) Addr.root ∧
    int_stable_hash 4 7 Addr.root =
      asInt_stable_hash false (leBytes 4 ((7 : Int).natAbs % 2 ^ (8 * 4))) Addr.root ∧
    vec_stable_hash (uint_stable_hash 2) [1, 2] Addr.root =
      vec_stable_hash (uint_stable_hash 4) [1, 2] Addr.root :=
  ⟨spec_c5_integer_width_independence.1 Addr.root 5 (by norm_num),
   spec_c5_integer_width_independence.2.1 Addr.root 70000 (by norm_num),
   spec_c5_integer_width_independence.2.2.1 Addr.root (-5) (by norm_num) (by norm_num),
   spec_c5_integer_width_independence.2.2.2.1 4 7 Addr.root (by norm_num),
   spec_c5_integer_width_independence.2.2.2.2.2 Addr.root [1, 2] (by decide)⟩

/-- C6.  Mix/unmix inverse law for the fast backend: `unmix` exactly inverts
`mixin`, `mixin` is commutative and associative, and consequently any
interleaved sequence of mix/unmix operations equals mixing in the combined
mix operands and unmixing the combined unmix operands — the accumulator of
the net-effect multiset. -/
theorem spec_c6_mix_unmix_inverse_law :
    (∀ a b : FastStableHasher, (a.mixin b).unmix b = a) ∧
    (∀ a b : FastStableHasher, a.mixin b = b.mixin a) ∧
    (∀ a b c : FastStableHasher, (a.mixin b).mixin c = a.mixin (b.mixin c)) ∧
    (∀ (a : FastStableHasher) (ops : List (Bool × FastStableHasher)),
      a.applyOps ops =
        (a.mixin (FastStableHasher.sum (FastStableHasher.mixes ops))).unmix
          (FastStableHasher.sum (FastStableHasher.unmixes ops))) :=
  ⟨FastStableHasher.unmix_mixin, FastStableHasher.mixin_comm,
   FastStableHasher.mixin_assoc, FastStableHasher.applyOps_net⟩

/-- C7.  Optional presence-flag distinguishability: `Option<T>` encodes the
`is_some` flag at a child address and, when present, the value at the
optional's own address; `Some v` always begins with the flag's write while
`None` writes nothing, so `Some(default)` and `None` differ — concretely,
`Some(0u32)` and `None::<u32>` produce different streams and different
digests under every injective finalization. -/
theorem spec_c7_option_presence_flag :
    (∀ (α : Type) (f : α → Addr → WStream) (a : Addr), option_stable_hash f none a = []) ∧
    (∀ (α : Type) (f : α → Addr → WStream) (v : α) (a : Addr),
      option_stable_hash f (some v) a =
        (a.pre ++ [a.ctr], []) :: f v ⟨a.pre, a.ctr + 1⟩) ∧
    (∀ (α : Type) (f : α → Addr → WStream) (v : α) (a : Addr),
      option_stable_hash f (some v) a ≠ option_stable_hash f none a) ∧
    (option_stable_hash (uint_stable_hash 4) (some 0) Addr.root ≠
      option_stable_hash (uint_stable_hash 4) none Addr.root) ∧
    (∀ (β : Type) (finish : WStream → β), Function.Injective finish →
      genericDigest finish (option_stable_hash (uint_stable_hash 4) (some 0)) ≠
        genericDigest finish (option_stable_hash (uint_stable_hash 4) none)) := by
  have hnone : ∀ (α : Type) (f : α → Addr → WStream) (a : Addr),
      option_stable_hash f none a = [] := by
    intro α f a
    simp [option_stable_hash, bool_stable_hash]
  have hsome : ∀ (α : Type) (f : α → Addr → WStream) (v : α) (a : Addr),
      option_stable_hash f (some v) a =
        (a.pre ++ [a.ctr], []) :: f v ⟨a.pre, a.ctr + 1⟩ := by
    intro α f v a
    simp [option_stable_hash, bool_stable_hash]
  have hne : ∀ (α : Type) (f : α → Addr → WStream) (v : α) (a : Addr),
      option_stable_hash f (some v) a ≠ option_stable_hash f none a := by
    intro α f v a
    rw [hsome, hnone]
    simp
  refine ⟨hnone, hsome, hne, hne Nat (uint_stable_hash 4) 0 Addr.root, ?_⟩
  intro β finish hinj h
  exact hne Nat (uint_stable_hash 4) 0 Addr.root (hinj h)

/-- C7 witness: instantiating the backend finalization with the injective
identity map. -/
theorem spec_c7_witness :
    genericDigest id (option_stable_hash (uint_stable_hash 4) (some 0)) ≠
      genericDigest id (option_stable_hash (uint_stable_hash 4) none) :=
  spec_c7_option_presence_flag.2.2.2.2 WStream id (fun _ _ h => h)

/-- C8.  Payload-marker/ordinal injectivity invariant of the cryptographic
backend: in every `Blake3SeqNo` state reachable through `root`, `next_child`
and `skip`, the child counter is strictly positive, so the varint
child-ordinal bytes fed by `next_child` never begin with the byte 0 — which
`finish` reserves as the marker preceding every leaf payload. -/
theorem spec_c8_marker_ordinal_injectivity :
    ∀ s : Blake3SeqNo, s.Reachable →
      0 < s.child ∧ (uleb128 s.child).head? ≠ some 0 ∧
      (∀ payload : List Nat, ((s.finish payload).drop s.fed.length).head? = some 0) := by
  intro s h
  have hp := Blake3SeqNo.reachable_child_pos h
  refine ⟨hp, uleb128_head_ne_zero hp, ?_⟩
  intro payload
  simp [Blake3SeqNo.finish, List.append_assoc, List.drop_left]

/-- C8 witness: the invariant at the root state, whose reachability is the
base constructor. -/
theorem spec_c8_witness :
    0 < Blake3SeqNo.root.child ∧ (uleb128 Blake3SeqNo.root.child).head? ≠ some 0 ∧
    (∀ payload : List Nat,
      ((Blake3SeqNo.root.finish payload).drop Blake3SeqNo.root.fed.length).head? = some 0) :=
  spec_c8_marker_ordinal_injectivity Blake3SeqNo.root Blake3SeqNo.Reachable.root

/-- C9 counterexample: the claim "every overflowing advance panics" fails at
the concrete state with counter `usize::MAX` advanced by `skip(2)`: the sum
overflows (`USIZE ≤ (USIZE - 1) + 2`) yet the operation succeeds, silently
wrapping the counter to 1. -/
theorem spec_c9_counterexample :
    USIZE ≤ (USIZE - 1) + 2 ∧
    Blake3SeqNo.skip ⟨[], USIZE - 1⟩ 2 = some ⟨[], 1⟩ := by
  constructor
  · simp [USIZE]
  · simp [Blake3SeqNo.skip, USIZE]

/-- C9 as amended: under wrapping (release) arithmetic, `next_child` panics
on exactly the overflowing increment (the wrapped counter is 0 and the
`NonZeroUsize` constructor rejects it), while `skip(n)` panics exactly when
the wrapped counter is 0 — an overflowing `skip` whose wrapped counter is
non-zero (possible only for n ≥ 2) wraps silently instead of panicking. -/
theorem spec_c9_overflow_amended :
    (∀ s : Blake3SeqNo, s.child < USIZE →
      (s.nextChild = none ↔ s.child + 1 = USIZE)) ∧
    (∀ (s : Blake3SeqNo) (n : Nat), s.skip n = none ↔ (s.child + n) % USIZE = 0) := by
  constructor
  · intro s hs
    simp only [Blake3SeqNo.nextChild]
    split
    · rename_i hc
      refine ⟨fun _ => ?_, fun _ => rfl⟩
      have hUS : 0 < USIZE := by simp [USIZE]
      have hle : s.child + 1 ≤ USIZE := by omega
      rcases Nat.lt_or_ge (s.child + 1) USIZE with hlt | hge
      · rw [Nat.mod_eq_of_lt hlt] at hc
        omega
      · omega
    · rename_i hc
      constructor
      · intro h
        exact absurd h (by simp)
      · intro h
        rw [h, Nat.mod_self] at hc
        exact absurd rfl hc
  · intro s n
    simp only [Blake3SeqNo.skip]
    split
    · rename_i hc
      simp [hc]
    · rename_i hc
      simp [hc]

/-- C9 witness: `next_child` at counter `usize::MAX` panics, and `skip` by
`usize::MAX - 1` from counter 1 panics (the wrapped counter is 0). -/
theorem spec_c9_witness :
    Blake3SeqNo.nextChild ⟨[], USIZE - 1⟩ = none ∧
    Blake3SeqNo.skip ⟨[], 1⟩ (USIZE - 1) = none :=
  ⟨(spec_c9_overflow_amended.1 ⟨[], USIZE - 1⟩ (by simp [USIZE])).mpr (by simp [USIZE]),
   (spec_c9_overflow_amended.2 ⟨[], 1⟩ (USIZE - 1)).mpr (by simp [USIZE])⟩

/-- C10.  Wrapper transparency: hashing a shared reference produces exactly
the write stream of the referent, a `String` hashes identically to its
`&str` contents, and a `Vec<T>` identically to the slice of its elements —
hence identical digests under every backend. -/
theorem spec_c10_wrapper_transparency :
    (∀ (f : Addr → WStream), ref_stable_hash f = f) ∧
    (∀ (s : List Nat) (a : Addr), string_stable_hash s a = str_stable_hash s a) ∧
    (∀ (α : Type) (f : α → Addr → WStream) (l : List α) (a : Addr),
      vec_stable_hash f l a = slice_stable_hash f l a) ∧
    (∀ (β : Type) (finish : WStream → β) (f : Addr → WStream),
      genericDigest finish (ref_stable_hash f) = genericDigest finish f) ∧
    (∀ (β : Type) (finish : WStream → β) (s : List Nat),
      genericDigest finish (string_stable_hash s) = genericDigest finish (str_stable_hash s)) ∧
    (∀ (β : Type) (finish : WStream → β) (α : Type) (f : α → Addr → WStream) (l : List α),
      genericDigest finish (vec_stable_hash f l) = genericDigest finish (slice_stable_hash f l)) :=
  ⟨fun _ => rfl, fun _ _ => rfl, fun _ _ _ _ => rfl,
   fun _ _ _ => rfl, fun _ _ _ => rfl, fun _ _ _ _ _ => rfl⟩
